import Mathlib

/-!
Shallow embedding of the POD engine
(`rbnics/backends/basic/proper_orthogonal_decomposition_base.py`) and of the
numpy `AffineExpansionStorage`
(`rbnics/backends/online/numpy/affine_expansion_storage.py`).

Modelling conventions:
* Scalars are exact rationals `ℚ` (the spec's exact-arithmetic reading of the
  float code); the basis-normalization step, which uses `math.sqrt`, is
  modelled over `ℝ`.
* The online eigensolver is an external collaborator; `apply` receives its
  output as a function `eig : ℕ → ℚ × ℚ` giving, for each index `i`, the pair
  `(real part, imaginary part)` returned by `eigensolver.get_eigenvalue(i)`.
* Python runtime failures are an explicit error type: a failed `assert` is
  `.assertionError`, the unbound `N` at the post-loop `N += 1` is
  `.nameError`, an out-of-range numpy index is `.indexError`.
-/

namespace POD

/-- A Python runtime failure raised by the modelled code paths. -/
inductive PyError where
  | assertionError
  | nameError
  | indexError
deriving DecidableEq, Repr

/-- The mutable state of a `_ProperOrthogonalDecompositionBase` instance:
`snapshots_matrix` (snapshots as lists of rationals), `self.eigenvalues`
and `self.retained_energy` (both initially `zeros(0)`, i.e. `[]`). -/
structure PODState where
  snapshots : List (List ℚ)
  eigenvalues : List ℚ
  retained_energy : List ℚ
deriving DecidableEq, Repr

/-- `clear` (lines 42-44): clears the snapshot container and re-assigns
`self.eigenvalues = zeros(0)`.  Nothing else is touched. -/
def clear (s : PODState) : PODState :=
  { snapshots := [], eigenvalues := [], retained_energy := s.retained_energy }

/-- `numpy.isclose(x, 0.)` with numpy's default tolerances
`rtol = 1e-5`, `atol = 1e-8`: since the reference value is `0`, the test is
`|x| ≤ atol`. -/
def npIscloseZero (x : ℚ) : Bool :=
  decide (|x| ≤ 1 / 100000000)

/-- `numpy.cumsum`: inclusive prefix sums. -/
def cumsum : List ℚ → List ℚ
  | [] => []
  | x :: xs => x :: (cumsum xs).map (fun y => x + y)

/-- Lines 78-83 of `apply`: `total_energy = sum(abs(eigenvalues))`,
`retained_energy = cumsum(abs(eigenvalues))`, divided by the total when it is
positive, incremented by `1.` otherwise (trivial case, all snapshots zero). -/
def retainedEnergyOf (eigenvalues : List ℚ) : List ℚ :=
  let absev := eigenvalues.map (fun x => |x|)
  let total_energy := absev.sum
  let re := cumsum absev
  if 0 < total_energy then re.map (fun x => x / total_energy)
  else re.map (fun x => x + 1)

/-- The final value of the loop variable `N` after
`for N in range(...): ...; if retained_energy[N] > 1 - tol: break`
(lines 85-96), given the current index `N` and the number `rem ≥ 1` of
remaining iterations.  When the loop exhausts naturally the last executed
index stays bound, which is `N + rem - 1`. -/
def finalN (re : List ℚ) (tol : ℚ) : ℕ → ℕ → ℕ
  | N, 0 => N - 1
  | N, rem + 1 => if 1 - tol < re.getD N 0 then N else finalN re tol (N + 1) rem

/-- `apply(Nmax, tol)` (lines 50-99), with the eigensolver output supplied by
the oracle `eig`.  Mirrors the source:
* `Neigs = len(self.snapshots_matrix)`; `Nmax = min(Nmax, Neigs)`;
* for each `i < Neigs`, `assert isclose(eig_i_complex, 0.)` — an
  `AssertionError` if any imaginary part is not numerically zero — and
  `self.eigenvalues[i] = eig_i_real`;
* `total_energy` / `retained_energy` as in `retainedEnergyOf`;
* the enrichment loop `for N in range(Nmax)` with the inclusive break on
  `retained_energy[N] > 1. - tol`; if the loop body never runs
  (`min(Nmax, Neigs) ≤ 0`) the post-loop `N += 1` raises an unbound-local
  `NameError`;
* returns the updated state, `self.eigenvalues[:N]` and `N`. -/
def apply (s : PODState) (eig : ℕ → ℚ × ℚ) (Nmax : ℤ) (tol : ℚ) :
    Except PyError (PODState × List ℚ × ℕ) :=
  let Neigs := s.snapshots.length
  let NmaxClamped : ℤ := min Nmax (Neigs : ℤ)
  if (List.range Neigs).all (fun i => npIscloseZero (eig i).2) then
    let eigenvalues := (List.range Neigs).map (fun i => (eig i).1)
    let retained_energy := retainedEnergyOf eigenvalues
    if NmaxClamped ≤ 0 then .error .nameError
    else
      let Nret := finalN retained_energy tol 0 NmaxClamped.toNat + 1
      .ok ({ s with eigenvalues := eigenvalues, retained_energy := retained_energy },
           eigenvalues.take Nret, Nret)
  else .error .assertionError

/-- The eigenvalue list extracted by `apply` from the eigensolver output:
`self.eigenvalues[i] = eig_i_real` for `i in range(Neigs)`. -/
def eigenvaluesOf (s : PODState) (eig : ℕ → ℚ × ℚ) : List ℚ :=
  (List.range s.snapshots.length).map (fun i => (eig i).1)

/-- An observable effect of a `save_*_file` call: a file write (the list of
lines written before returning or failing) or the MPI barrier. -/
inductive IOEvent where
  | write (lines : List String)
  | barrier
deriving DecidableEq, Repr

/-- The common body of `save_eigenvalues_file` / `save_retained_energy_file`
(lines 107-121): on the I/O process, write one `<index> <value>` line for each
`i in range(N)` where `N = len(self.snapshots_matrix)`; indexing `vals[i]`
with `i ≥ len(vals)` raises an `IndexError`, leaving a partial file and never
reaching the barrier.  Non-I/O processes only hit the barrier. -/
def saveValuesFile (vals : List ℚ) (Nsnap : ℕ) (ioProc : Bool) :
    List IOEvent × Option PyError :=
  if ioProc then
    let M := min Nsnap vals.length
    let lines := (List.range M).map (fun i => toString i ++ " " ++ toString (vals.getD i 0))
    if Nsnap ≤ vals.length then ([.write lines, .barrier], none)
    else ([.write lines], some .indexError)
  else ([.barrier], none)

/-- `save_eigenvalues_file` (lines 107-113). -/
def save_eigenvalues_file (s : PODState) (ioProc : Bool) :
    List IOEvent × Option PyError :=
  saveValuesFile s.eigenvalues s.snapshots.length ioProc

/-- `save_retained_energy_file` (lines 115-121). -/
def save_retained_energy_file (s : PODState) (ioProc : Bool) :
    List IOEvent × Option PyError :=
  saveValuesFile s.retained_energy s.snapshots.length ioProc

end POD

namespace Enrich

/-- Dot product of two real vectors (`transpose(u)*v`). -/
def dotR (u v : List ℝ) : ℝ := (List.zipWith (fun a b => a * b) u v).sum

/-- Matrix-vector product `X*v` for a dense matrix given as rows. -/
def matVec (X : List (List ℝ)) (v : List ℝ) : List ℝ :=
  X.map (fun row => dotR row v)

/-- Lines 88-91 of `apply`: `norm_b = sqrt(transpose(b)*X*b)` when an inner
product `X` is supplied, `sqrt(transpose(b)*b)` otherwise. -/
noncomputable def norm_b (X : Option (List (List ℝ))) (b : List ℝ) : ℝ :=
  match X with
  | some Xm => Real.sqrt (dotR b (matVec Xm b))
  | none => Real.sqrt (dotR b b)

/-- Lines 92-94 of `apply`: `if norm_b != 0.: b /= norm_b`, then the result is
passed to `Z.enrich`. -/
noncomputable def enrichStep (X : Option (List (List ℝ))) (b : List ℝ) : List ℝ :=
  if norm_b X b ≠ 0 then b.map (fun x => x / norm_b X b) else b

end Enrich

namespace AES

/-- The per-instance state of the numpy `AffineExpansionStorage`: the fixed
`self._content` slots (unset elements are `none`) and the cached dense-matrix
view `self._content_as_matrix` (`none` means invalidated / not yet built).
`β` is the type of the numpy dense view. -/
structure Storage (α β : Type) where
  content : List (Option α)
  contentAsMatrix : Option β
deriving DecidableEq, Repr

/-- `__setitem__` (lines 45-48).  The delegated
`AffineExpansionStorage_Base.__setitem__` is modelled from the spec: `key must
be within the fixed bounds established at construction (IndexError-class
failure otherwise)`, then assigns the item.  On success the subclass resets
`self._content_as_matrix = None`; on an out-of-range key the base call raises
before the reset line runs. -/
def setitem {α β : Type} (s : Storage α β) (key : ℕ) (item : α) :
    Except POD.PyError (Storage α β) :=
  if key < s.content.length then
    .ok { content := s.content.set key (some item), contentAsMatrix := none }
  else .error .indexError

/-- `as_matrix` (lines 56-59): if the cache is `None`, recompute it as
`AffineExpansionStorageContent_AsMatrix(self._content)` (the numpy assembly,
modelled as the parameter `am`) and store it; return the cached view together
with the updated instance state. -/
def as_matrix {α β : Type} (am : List (Option α) → β) (s : Storage α β) :
    β × Storage α β :=
  match s.contentAsMatrix with
  | some m => (m, s)
  | none =>
      let m := am s.content
      (m, { s with contentAsMatrix := some m })

/-- `load` (lines 50-54).  The delegated `AffineExpansionStorage_Base.load` is
modelled from the spec: `persist/restore every element through the same
per-element numeric (de)serialization` — here the restored contents are the
parameter `loaded`.  The subclass then sets `self._content_as_matrix = None`
and eagerly calls `self.as_matrix()`. -/
def load {α β : Type} (am : List (Option α) → β) (s : Storage α β)
    (loaded : List (Option α)) : Storage α β :=
  let s1 : Storage α β := { s with content := loaded }
  let s2 : Storage α β := { s1 with contentAsMatrix := none }
  (as_matrix am s2).2

end AES

/-! ### Helper lemmas (shared) -/

namespace POD

theorem cumsum_length (l : List ℚ) : (cumsum l).length = l.length := by
  induction l with
  | nil => rfl
  | cons x xs ih => simp [cumsum, ih]

theorem getD_map_range {α : Type} (f : ℕ → α) (N i : ℕ) (d : α) (h : i < N) :
    ((List.range N).map f).getD i d = f i := by
  rw [List.getD_eq_getElem?_getD, List.getElem?_map, List.getElem?_range h]
  rfl

theorem cumsum_getD_le_sum (l : List ℚ) (hnn : ∀ x ∈ l, 0 ≤ x) :
    ∀ k, k < l.length → (cumsum l).getD k 0 ≤ l.sum := by
  induction l with
  | nil => intro k hk; simp at hk
  | cons x xs ih =>
      intro k hk
      cases k with
      | zero =>
          simp only [cumsum, List.getD_cons_zero, List.sum_cons]
          have : 0 ≤ xs.sum := List.sum_nonneg fun y hy => hnn y (List.mem_cons_of_mem _ hy)
          linarith
      | succ k =>
          simp only [cumsum, List.getD_cons_succ, List.sum_cons]
          have hk' : k < xs.length := by simpa [cumsum_length] using Nat.lt_of_succ_lt_succ hk
          have hk'' : k < (cumsum xs).length := by simpa [cumsum_length] using hk'
          rw [List.getD_eq_getElem _ _ (by simpa using hk''), List.getElem_map]
          have := ih (fun y hy => hnn y (List.mem_cons_of_mem _ hy)) k hk'
          rw [List.getD_eq_getElem _ _ hk''] at this
          linarith

theorem cumsum_replicate_zero (n : ℕ) :
    cumsum (List.replicate n (0 : ℚ)) = List.replicate n 0 := by
  induction n with
  | zero => rfl
  | succ n ih => simp [cumsum, List.replicate_succ, ih]

theorem finalN_no_cross (re : List ℚ) (tol : ℚ) :
    ∀ rem N, (∀ j, N ≤ j → j < N + rem → ¬(1 - tol < re.getD j 0)) →
      finalN re tol N rem = N + rem - 1 := by
  intro rem
  induction rem with
  | zero => intro N _; simp [finalN]
  | succ rem ih =>
      intro N hno
      have hN : ¬(1 - tol < re.getD N 0) := hno N le_rfl (by omega)
      rw [finalN, if_neg hN, ih (N + 1) (fun j h1 h2 => hno j (by omega) (by omega))]
      omega

theorem finalN_cross (re : List ℚ) (tol : ℚ) :
    ∀ rem N k, N ≤ k → k < N + rem → (1 - tol < re.getD k 0) →
      (∀ j, N ≤ j → j < k → ¬(1 - tol < re.getD j 0)) →
      finalN re tol N rem = k := by
  intro rem
  induction rem with
  | zero => intro N k h1 h2 _ _; omega
  | succ rem ih =>
      intro N k h1 h2 hc hmin
      by_cases hNk : N = k
      · subst hNk
        rw [finalN, if_pos hc]
      · have hlt : N < k := lt_of_le_of_ne h1 hNk
        have hN : ¬(1 - tol < re.getD N 0) := hmin N le_rfl hlt
        rw [finalN, if_neg hN]
        exact ih (N + 1) k (by omega) (by omega) hc (fun j hj1 hj2 => hmin j (by omega) hj2)

theorem apply_eq_ok (s : PODState) (eig : ℕ → ℚ × ℚ) (Nmax : ℤ) (tol : ℚ)
    (hreal : ∀ i < s.snapshots.length, npIscloseZero (eig i).2 = true)
    (hpos : 0 < min Nmax (s.snapshots.length : ℤ)) :
    apply s eig Nmax tol =
      .ok ({ s with eigenvalues := eigenvaluesOf s eig,
                    retained_energy := retainedEnergyOf (eigenvaluesOf s eig) },
           (eigenvaluesOf s eig).take
             (finalN (retainedEnergyOf (eigenvaluesOf s eig)) tol 0
               (min Nmax (s.snapshots.length : ℤ)).toNat + 1),
           finalN (retainedEnergyOf (eigenvaluesOf s eig)) tol 0
             (min Nmax (s.snapshots.length : ℤ)).toNat + 1) := by
  have hall : (List.range s.snapshots.length).all (fun i => npIscloseZero (eig i).2) = true := by
    rw [List.all_eq_true]
    intro i hi
    exact hreal i (List.mem_range.mp hi)
  have hnot : ¬(min Nmax (s.snapshots.length : ℤ) ≤ 0) := not_le.mpr hpos
  simp only [apply, eigenvaluesOf, hall, if_true, if_neg hnot]

theorem apply_eq_nameError (s : PODState) (eig : ℕ → ℚ × ℚ) (Nmax : ℤ) (tol : ℚ)
    (hreal : ∀ i < s.snapshots.length, npIscloseZero (eig i).2 = true)
    (hmin : min Nmax (s.snapshots.length : ℤ) ≤ 0) :
    apply s eig Nmax tol = .error .nameError := by
  have hall : (List.range s.snapshots.length).all (fun i => npIscloseZero (eig i).2) = true := by
    rw [List.all_eq_true]
    intro i hi
    exact hreal i (List.mem_range.mp hi)
  simp only [apply, hall, if_true, if_pos hmin]

end POD

namespace Enrich

theorem dotR_self_nonneg (b : List ℝ) : 0 ≤ dotR b b := by
  induction b with
  | nil => simp [dotR]
  | cons x xs ih =>
      simp only [dotR, List.zipWith_cons_cons, List.sum_cons] at *
      nlinarith [mul_self_nonneg x]

theorem dotR_self_eq_zero (b : List ℝ) (h : dotR b b = 0) :
    b = List.replicate b.length 0 := by
  induction b with
  | nil => rfl
  | cons x xs ih =>
      simp only [dotR, List.zipWith_cons_cons, List.sum_cons] at h
      have hxs : 0 ≤ dotR xs xs := dotR_self_nonneg xs
      have hx2 : 0 ≤ x * x := mul_self_nonneg x
      have hx : x * x = 0 := by
        simp only [dotR] at hxs
        linarith
      have hrest : dotR xs xs = 0 := by
        simp only [dotR] at hxs ⊢
        linarith
      have hx0 : x = 0 := by nlinarith
      subst hx0
      rw [List.length_cons, List.replicate_succ]
      exact congrArg (List.cons 0) (ih hrest)

end Enrich

namespace POD

theorem saveValuesFile_complete (vals : List ℚ) (Nsnap : ℕ) (h : Nsnap ≤ vals.length) :
    ∃ lines, saveValuesFile vals Nsnap true = ([.write lines, .barrier], none) ∧
      lines.length = Nsnap ∧
      ∀ i < Nsnap, lines.getD i "" = toString i ++ " " ++ toString (vals.getD i 0) := by
  refine ⟨(List.range (min Nsnap vals.length)).map
      (fun i => toString i ++ " " ++ toString (vals.getD i 0)), ?_, ?_, ?_⟩
  · simp [saveValuesFile, h]
  · simp [min_eq_left h]
  · intro i hi
    exact getD_map_range _ _ _ _ (by omega)

theorem saveValuesFile_notIO (vals : List ℚ) (Nsnap : ℕ) :
    saveValuesFile vals Nsnap false = ([.barrier], none) := rfl

theorem saveValuesFile_short (vals : List ℚ) (Nsnap : ℕ) (h : vals.length < Nsnap) :
    ∃ lines, saveValuesFile vals Nsnap true = ([.write lines], some .indexError) ∧
      lines.length < Nsnap := by
  refine ⟨(List.range (min Nsnap vals.length)).map
      (fun i => toString i ++ " " ++ toString (vals.getD i 0)), ?_, ?_⟩
  · simp [saveValuesFile, not_le.mpr h]
  · simp [min_eq_right h.le]
    omega

end POD

/-! ### Claim theorems -/

/-- C3 (counterexample): the claim says `clear()` also resets the
retained-energy sequence to empty.  On the concrete state with one snapshot,
`eigenvalues = [1]` and `retained_energy = [1]`, `clear` empties the snapshot
container and the eigenvalue sequence but leaves `retained_energy = [1]`,
which is not empty. -/
theorem clear_keeps_retained_energy_cex :
    (POD.clear ⟨[[1]], [1], [1]⟩).snapshots = [] ∧
    (POD.clear ⟨[[1]], [1], [1]⟩).eigenvalues = [] ∧
    (POD.clear ⟨[[1]], [1], [1]⟩).retained_energy = [1] ∧
    ¬((POD.clear ⟨[[1]], [1], [1]⟩).retained_energy = []) := by
  refine ⟨rfl, rfl, rfl, ?_⟩
  simp [POD.clear]

/-- C3 (amended): after `clear()` the snapshot container is empty and the
eigenvalue sequence is empty, while the retained-energy sequence is left
unchanged (it is not reset by `clear`). -/
theorem clear_spec (s : POD.PODState) :
    (POD.clear s).snapshots = [] ∧ (POD.clear s).eigenvalues = [] ∧
    (POD.clear s).retained_energy = s.retained_energy :=
  ⟨rfl, rfl, rfl⟩

/-- C9: whenever `min(Nmax, N) ≤ 0` (non-positive `Nmax`, or no stored
snapshots) and the eigensolver output passes the realness assertions, the
enrichment loop body never executes and `apply` raises the unbound-local
error at the post-loop `N += 1` instead of returning a triple. -/
theorem apply_empty_loop_raises (s : POD.PODState) (eig : ℕ → ℚ × ℚ)
    (Nmax : ℤ) (tol : ℚ)
    (hreal : ∀ i < s.snapshots.length, POD.npIscloseZero (eig i).2 = true)
    (hmin : min Nmax (s.snapshots.length : ℤ) ≤ 0) :
    POD.apply s eig Nmax tol = .error .nameError :=
  POD.apply_eq_nameError s eig Nmax tol hreal hmin

/-- C9 witness: a POD engine with no stored snapshots and `Nmax = 5`
raises the unbound-local error. -/
theorem apply_empty_loop_raises_witness :
    POD.apply ⟨[], [], []⟩ (fun _ => ((0 : ℚ), (0 : ℚ))) 5 (1 / 2) =
      .error .nameError :=
  apply_empty_loop_raises ⟨[], [], []⟩ (fun _ => ((0 : ℚ), (0 : ℚ))) 5 (1 / 2)
    (by decide) (by decide)

/-- C10: `save_eigenvalues_file` / `save_retained_energy_file` index the
stored arrays by the snapshot count `N = len(snapshots_matrix)`, not by the
arrays' own lengths: when the eigenvalue (resp. retained-energy) array is
shorter than the snapshot count, the I/O process's write loop raises an
out-of-range `IndexError` after writing only the in-range lines, so no
complete `N`-line file is produced. -/
theorem save_files_index_error (s : POD.PODState) :
    (s.eigenvalues.length < s.snapshots.length →
      ∃ lines, POD.save_eigenvalues_file s true = ([.write lines], some .indexError) ∧
        lines.length < s.snapshots.length) ∧
    (s.retained_energy.length < s.snapshots.length →
      ∃ lines, POD.save_retained_energy_file s true = ([.write lines], some .indexError) ∧
        lines.length < s.snapshots.length) :=
  ⟨fun h => POD.saveValuesFile_short s.eigenvalues s.snapshots.length h,
   fun h => POD.saveValuesFile_short s.retained_energy s.snapshots.length h⟩

/-- C10 witness: with one stored snapshot and both derived arrays still at
their initial empty value (`apply` never ran), both save calls fail with an
out-of-range index error. -/
theorem save_files_index_error_witness :
    ((⟨[[1]], [], []⟩ : POD.PODState).eigenvalues.length <
        (⟨[[1]], [], []⟩ : POD.PODState).snapshots.length →
      ∃ lines, POD.save_eigenvalues_file ⟨[[1]], [], []⟩ true =
          ([.write lines], some .indexError) ∧
        lines.length < (⟨[[1]], [], []⟩ : POD.PODState).snapshots.length) ∧
    ((⟨[[1]], [], []⟩ : POD.PODState).retained_energy.length <
        (⟨[[1]], [], []⟩ : POD.PODState).snapshots.length →
      ∃ lines, POD.save_retained_energy_file ⟨[[1]], [], []⟩ true =
          ([.write lines], some .indexError) ∧
        lines.length < (⟨[[1]], [], []⟩ : POD.PODState).snapshots.length) :=
  save_files_index_error ⟨[[1]], [], []⟩

/-- C8: when both stored arrays have at least `N = len(snapshots_matrix)`
entries, `save_eigenvalues_file` and `save_retained_energy_file` write, on
the I/O process, exactly `N` lines, line `i` being the index `i`, a space and
the `i`-th value, in increasing index order starting at `0`; a non-I/O
process writes nothing; every participant reaches the barrier and the calls
return without error. -/
theorem save_files_format (s : POD.PODState)
    (hE : s.snapshots.length ≤ s.eigenvalues.length)
    (hR : s.snapshots.length ≤ s.retained_energy.length) :
    (∃ lines, POD.save_eigenvalues_file s true = ([.write lines, .barrier], none) ∧
       lines.length = s.snapshots.length ∧
       ∀ i < s.snapshots.length,
         lines.getD i "" = toString i ++ " " ++ toString (s.eigenvalues.getD i 0)) ∧
    POD.save_eigenvalues_file s false = ([.barrier], none) ∧
    (∃ lines, POD.save_retained_energy_file s true = ([.write lines, .barrier], none) ∧
       lines.length = s.snapshots.length ∧
       ∀ i < s.snapshots.length,
         lines.getD i "" = toString i ++ " " ++ toString (s.retained_energy.getD i 0)) ∧
    POD.save_retained_energy_file s false = ([.barrier], none) :=
  ⟨POD.saveValuesFile_complete s.eigenvalues s.snapshots.length hE,
   POD.saveValuesFile_notIO s.eigenvalues s.snapshots.length,
   POD.saveValuesFile_complete s.retained_energy s.snapshots.length hR,
   POD.saveValuesFile_notIO s.retained_energy s.snapshots.length⟩

/-- C8 witness: one snapshot, `eigenvalues = [2]`, `retained_energy = [1]`:
both files consist of exactly one line. -/
theorem save_files_format_witness :
    (∃ lines, POD.save_eigenvalues_file ⟨[[1]], [2], [1]⟩ true =
        ([.write lines, .barrier], none) ∧
       lines.length = (⟨[[1]], [2], [1]⟩ : POD.PODState).snapshots.length ∧
       ∀ i < (⟨[[1]], [2], [1]⟩ : POD.PODState).snapshots.length,
         lines.getD i "" = toString i ++ " " ++
           toString ((⟨[[1]], [2], [1]⟩ : POD.PODState).eigenvalues.getD i 0)) ∧
    POD.save_eigenvalues_file ⟨[[1]], [2], [1]⟩ false = ([.barrier], none) ∧
    (∃ lines, POD.save_retained_energy_file ⟨[[1]], [2], [1]⟩ true =
        ([.write lines, .barrier], none) ∧
       lines.length = (⟨[[1]], [2], [1]⟩ : POD.PODState).snapshots.length ∧
       ∀ i < (⟨[[1]], [2], [1]⟩ : POD.PODState).snapshots.length,
         lines.getD i "" = toString i ++ " " ++
           toString ((⟨[[1]], [2], [1]⟩ : POD.PODState).retained_energy.getD i 0)) ∧
    POD.save_retained_energy_file ⟨[[1]], [2], [1]⟩ false = ([.barrier], none) :=
  save_files_format ⟨[[1]], [2], [1]⟩ (by decide) (by decide)

/-- C7: for every `AffineExpansionStorage` instance: (a) every successful
`__setitem__` call invalidates the cached dense-matrix view; (b) `as_matrix`
recomputes the dense assembly of the current contents exactly when the cache
is empty, and returns the cached value (with unchanged state) otherwise, so
two consecutive `as_matrix` calls with no intervening mutation return the
same cached object; (c) `load` invalidates and then eagerly recomputes the
cache, so the view is non-empty (and assembled from the freshly loaded
contents) immediately after `load` returns. -/
theorem aes_cache_invariants {α β : Type} (am : List (Option α) → β)
    (s : AES.Storage α β) (key : ℕ) (item : α) (loaded : List (Option α)) :
    (∀ s', AES.setitem s key item = .ok s' → s'.contentAsMatrix = none) ∧
    (s.contentAsMatrix = none →
      AES.as_matrix am s =
        (am s.content, { s with contentAsMatrix := some (am s.content) })) ∧
    (∀ m, s.contentAsMatrix = some m → AES.as_matrix am s = (m, s)) ∧
    (AES.as_matrix am (AES.as_matrix am s).2).1 = (AES.as_matrix am s).1 ∧
    (AES.as_matrix am (AES.as_matrix am s).2).2 = (AES.as_matrix am s).2 ∧
    (AES.load am s loaded).contentAsMatrix = some (am loaded) := by
  refine ⟨?_, ?_, ?_, ?_, ?_, ?_⟩
  · intro s' h
    by_cases hk : key < s.content.length
    · simp only [AES.setitem, if_pos hk, Except.ok.injEq] at h
      rw [← h]
    · simp only [AES.setitem, if_neg hk] at h
      exact absurd h (by simp)
  · intro h
    simp only [AES.as_matrix, h]
  · intro m h
    simp only [AES.as_matrix, h]
  · cases hc : s.contentAsMatrix <;> simp [AES.as_matrix, hc]
  · cases hc : s.contentAsMatrix <;> simp [AES.as_matrix, hc]
  · rfl

/-- C7 witness: concrete one-slot rational storage with identity assembly. -/
theorem aes_cache_invariants_witness :
    (∀ s', AES.setitem (⟨[none], none⟩ : AES.Storage ℚ (List (Option ℚ))) 0 1 =
        .ok s' → s'.contentAsMatrix = none) ∧
    ((⟨[none], none⟩ : AES.Storage ℚ (List (Option ℚ))).contentAsMatrix = none →
      AES.as_matrix id (⟨[none], none⟩ : AES.Storage ℚ (List (Option ℚ))) =
        (id [none],
         { (⟨[none], none⟩ : AES.Storage ℚ (List (Option ℚ))) with
             contentAsMatrix := some (id [none]) })) ∧
    (∀ m, (⟨[none], none⟩ : AES.Storage ℚ (List (Option ℚ))).contentAsMatrix = some m →
      AES.as_matrix id (⟨[none], none⟩ : AES.Storage ℚ (List (Option ℚ))) =
        (m, (⟨[none], none⟩ : AES.Storage ℚ (List (Option ℚ))))) ∧
    (AES.as_matrix id
        (AES.as_matrix id (⟨[none], none⟩ : AES.Storage ℚ (List (Option ℚ)))).2).1 =
      (AES.as_matrix id (⟨[none], none⟩ : AES.Storage ℚ (List (Option ℚ)))).1 ∧
    (AES.as_matrix id
        (AES.as_matrix id (⟨[none], none⟩ : AES.Storage ℚ (List (Option ℚ)))).2).2 =
      (AES.as_matrix id (⟨[none], none⟩ : AES.Storage ℚ (List (Option ℚ)))).2 ∧
    (AES.load id (⟨[none], none⟩ : AES.Storage ℚ (List (Option ℚ)))
        [some 2]).contentAsMatrix = some (id [some 2]) :=
  aes_cache_invariants id ⟨[none], none⟩ 0 1 [some 2]

/-- C1: for every snapshot set with `N ≥ 1` snapshots and every `Nmax ≥ 1`
(eigensolver output numerically real), `apply(Nmax, tol)` returns a retained
count `Nret ≤ min(Nmax, N)`; the returned eigenvalue sequence has exactly
`Nret` entries; if some index `k < min(Nmax, N)` has
`RetainedEnergy[k] > 1 - tol` then `Nret` is the smallest such `k` plus one
(truncation includes the vector that first crosses the tolerance), and
otherwise `Nret = min(Nmax, N)`. -/
theorem apply_truncation (s : POD.PODState) (eig : ℕ → ℚ × ℚ) (Nmax : ℤ) (tol : ℚ)
    (hN : 1 ≤ s.snapshots.length) (hNmax : 1 ≤ Nmax)
    (hreal : ∀ i < s.snapshots.length, POD.npIscloseZero (eig i).2 = true) :
    ∃ s2 evs Nret, POD.apply s eig Nmax tol = .ok (s2, evs, Nret) ∧
      Nret ≤ min Nmax.toNat s.snapshots.length ∧
      evs.length = Nret ∧
      (∀ h : (∃ k, k < min Nmax.toNat s.snapshots.length ∧
          1 - tol < (POD.retainedEnergyOf (POD.eigenvaluesOf s eig)).getD k 0),
        Nret = Nat.find h + 1) ∧
      ((∀ k < min Nmax.toNat s.snapshots.length,
          ¬(1 - tol < (POD.retainedEnergyOf (POD.eigenvaluesOf s eig)).getD k 0)) →
        Nret = min Nmax.toNat s.snapshots.length) := by
  set RE := POD.retainedEnergyOf (POD.eigenvaluesOf s eig) with hRE
  set m := min Nmax.toNat s.snapshots.length with hm
  have hpos : 0 < min Nmax (s.snapshots.length : ℤ) := by omega
  have htoNat : (min Nmax (s.snapshots.length : ℤ)).toNat = m := by omega
  have hm1 : 1 ≤ m := by omega
  have hevlen : (POD.eigenvaluesOf s eig).length = s.snapshots.length := by
    simp [POD.eigenvaluesOf]
  have hfind : ∀ h : (∃ k, k < m ∧ 1 - tol < RE.getD k 0),
      POD.finalN RE tol 0 m = Nat.find h := by
    intro h
    have hs := Nat.find_spec h
    have hs1 : Nat.find h < m := hs.1
    refine POD.finalN_cross RE tol m 0 (Nat.find h) (Nat.zero_le _) (by omega) hs.2 ?_
    intro j _ hj hc
    exact Nat.find_min h hj ⟨by omega, hc⟩
  have hnocross : (∀ k < m, ¬(1 - tol < RE.getD k 0)) →
      POD.finalN RE tol 0 m = m - 1 := by
    intro hno
    have := POD.finalN_no_cross RE tol m 0 (fun j _ hj => hno j (by omega))
    simpa using this
  have hle : POD.finalN RE tol 0 m + 1 ≤ m := by
    by_cases hex : ∃ k, k < m ∧ 1 - tol < RE.getD k 0
    · rw [hfind hex]
      have := (Nat.find_spec hex).1
      omega
    · push_neg at hex
      rw [hnocross (fun k hk => not_lt.mpr (hex k hk))]
      omega
  have happly := POD.apply_eq_ok s eig Nmax tol hreal hpos
  rw [htoNat, ← hRE] at happly
  refine ⟨_, _, _, happly, hle, ?_, ?_, ?_⟩
  · rw [List.length_take, hevlen]
    omega
  · intro h
    rw [hfind h]
  · intro hno
    rw [hnocross hno]
    omega

/-- C1 witness: one snapshot, eigensolver output `(1, 0)`, `Nmax = 1`,
`tol = 1/2`. -/
theorem apply_truncation_witness :
    ∃ s2 evs Nret,
      POD.apply ⟨[[1]], [], []⟩ (fun _ => ((1 : ℚ), (0 : ℚ))) 1 (1 / 2) =
        .ok (s2, evs, Nret) ∧
      Nret ≤ min (1 : ℤ).toNat (⟨[[1]], [], []⟩ : POD.PODState).snapshots.length ∧
      evs.length = Nret ∧
      (∀ h : (∃ k, k < min (1 : ℤ).toNat
            (⟨[[1]], [], []⟩ : POD.PODState).snapshots.length ∧
          1 - 1 / 2 < (POD.retainedEnergyOf
            (POD.eigenvaluesOf ⟨[[1]], [], []⟩ (fun _ => ((1 : ℚ), (0 : ℚ))))).getD k 0),
        Nret = Nat.find h + 1) ∧
      ((∀ k < min (1 : ℤ).toNat (⟨[[1]], [], []⟩ : POD.PODState).snapshots.length,
          ¬(1 - 1 / 2 < (POD.retainedEnergyOf
            (POD.eigenvaluesOf ⟨[[1]], [], []⟩ (fun _ => ((1 : ℚ), (0 : ℚ))))).getD k 0)) →
        Nret = min (1 : ℤ).toNat (⟨[[1]], [], []⟩ : POD.PODState).snapshots.length) :=
  apply_truncation ⟨[[1]], [], []⟩ (fun _ => ((1 : ℚ), (0 : ℚ))) 1 (1 / 2)
    (by decide) (by decide) (by simp [POD.npIscloseZero])

/-- C2: when the eigensolver output is identically `(0, 0)` (all snapshots
are the zero vector, so the correlation matrix is zero and the total
eigenvalue energy is exactly zero), `apply(Nmax, tol)` does not divide by
zero: the stored retained-energy sequence is exactly `1` at every index, and
for every `tol ∈ (0, 1]` and `Nmax ≥ 1` the returned count is `N_ret = 1`. -/
theorem apply_zero_energy (s : POD.PODState) (eig : ℕ → ℚ × ℚ) (Nmax : ℤ) (tol : ℚ)
    (hN : 1 ≤ s.snapshots.length) (hNmax : 1 ≤ Nmax)
    (htol0 : 0 < tol) (_htol1 : tol ≤ 1)
    (hzero : ∀ i < s.snapshots.length, eig i = (0, 0)) :
    ∃ s2 evs, POD.apply s eig Nmax tol = .ok (s2, evs, 1) ∧
      s2.retained_energy = List.replicate s.snapshots.length 1 := by
  have hreal : ∀ i < s.snapshots.length, POD.npIscloseZero (eig i).2 = true := by
    intro i hi
    rw [hzero i hi]
    simp [POD.npIscloseZero]
  have hpos : 0 < min Nmax (s.snapshots.length : ℤ) := by omega
  have hev : POD.eigenvaluesOf s eig = List.replicate s.snapshots.length 0 := by
    rw [List.eq_replicate_iff]
    constructor
    · simp [POD.eigenvaluesOf]
    · intro b hb
      simp only [POD.eigenvaluesOf, List.mem_map, List.mem_range] at hb
      obtain ⟨i, hi, hbi⟩ := hb
      rw [hzero i hi] at hbi
      exact hbi.symm
  have hre : POD.retainedEnergyOf (List.replicate s.snapshots.length 0)
      = List.replicate s.snapshots.length 1 := by
    simp [POD.retainedEnergyOf, POD.cumsum_replicate_zero]
  have hgetD : (List.replicate s.snapshots.length (1 : ℚ)).getD 0 0 = 1 := by
    rw [List.getD_eq_getElem _ _ (by simpa using hN)]
    simp
  have hfin : POD.finalN (List.replicate s.snapshots.length 1) tol 0
      (min Nmax (s.snapshots.length : ℤ)).toNat = 0 := by
    refine POD.finalN_cross _ tol _ 0 0 le_rfl (by omega) ?_ ?_
    · rw [hgetD]; linarith
    · intro j _ hj; omega
  have happly := POD.apply_eq_ok s eig Nmax tol hreal hpos
  rw [hev, hre, hfin] at happly
  exact ⟨_, _, happly, rfl⟩

/-- C2 witness: two zero snapshots, `Nmax = 5`, `tol = 1/100`. -/
theorem apply_zero_energy_witness :
    ∃ s2 evs,
      POD.apply ⟨[[0], [0]], [], []⟩ (fun _ => ((0 : ℚ), (0 : ℚ))) 5 (1 / 100) =
        .ok (s2, evs, 1) ∧
      s2.retained_energy =
        List.replicate (⟨[[0], [0]], [], []⟩ : POD.PODState).snapshots.length 1 :=
  apply_zero_energy ⟨[[0], [0]], [], []⟩ (fun _ => ((0 : ℚ), (0 : ℚ))) 5 (1 / 100)
    (by decide) (by decide) (by norm_num) (by norm_num)
    (fun _ _ => rfl)

/-- C4: with `tol = 0` and at least one non-zero eigenvalue, `apply` never
stops early: retained energy never exceeds `1` in exact arithmetic, so the
break condition `retained_energy[N] > 1 - 0` never fires, all
`min(Nmax, N)` basis vectors are produced and `N_ret = min(Nmax, N)`. -/
theorem apply_tol_zero_full (s : POD.PODState) (eig : ℕ → ℚ × ℚ) (Nmax : ℤ)
    (hNmax : 1 ≤ Nmax)
    (hreal : ∀ i < s.snapshots.length, POD.npIscloseZero (eig i).2 = true)
    (hnz : ∃ i, i < s.snapshots.length ∧ (eig i).1 ≠ 0) :
    ∃ s2 evs, POD.apply s eig Nmax 0 =
        .ok (s2, evs, min Nmax.toNat s.snapshots.length) ∧
      evs.length = min Nmax.toNat s.snapshots.length := by
  obtain ⟨i0, hi0, hnz0⟩ := hnz
  have hN : 1 ≤ s.snapshots.length := by omega
  have hpos : 0 < min Nmax (s.snapshots.length : ℤ) := by omega
  have htoNat : (min Nmax (s.snapshots.length : ℤ)).toNat
      = min Nmax.toNat s.snapshots.length := by omega
  set evs := POD.eigenvaluesOf s eig with hevs
  set absev := evs.map (fun x => |x|) with habsev
  have habslen : absev.length = s.snapshots.length := by
    simp [habsev, hevs, POD.eigenvaluesOf]
  have habsnn : ∀ x ∈ absev, 0 ≤ x := by
    intro x hx
    simp only [habsev, List.mem_map] at hx
    obtain ⟨y, _, hy⟩ := hx
    rw [← hy]
    exact abs_nonneg y
  have hmem : |(eig i0).1| ∈ absev := by
    simp only [habsev, List.mem_map]
    exact ⟨(eig i0).1, by
      simp only [hevs, POD.eigenvaluesOf, List.mem_map, List.mem_range]
      exact ⟨i0, hi0, rfl⟩, rfl⟩
  have htotal : 0 < absev.sum := by
    have h1 : |(eig i0).1| ≤ absev.sum := List.single_le_sum habsnn _ hmem
    have h2 : 0 < |(eig i0).1| := abs_pos.mpr hnz0
    linarith
  have hREeq : POD.retainedEnergyOf evs = (POD.cumsum absev).map (fun x => x / absev.sum) := by
    simp only [POD.retainedEnergyOf]
    rw [if_pos htotal]
  have hnocross : ∀ k < min Nmax.toNat s.snapshots.length,
      ¬(1 - 0 < (POD.retainedEnergyOf evs).getD k 0) := by
    intro k hk
    have hklen : k < (POD.cumsum absev).length := by
      rw [POD.cumsum_length, habslen]; omega
    have hgetD : (POD.retainedEnergyOf evs).getD k 0 = (POD.cumsum absev).getD k 0 / absev.sum := by
      rw [hREeq, List.getD_eq_getElem _ _ (by simpa using hklen), List.getElem_map,
        List.getD_eq_getElem _ _ hklen]
    have hle1 : (POD.cumsum absev).getD k 0 ≤ absev.sum :=
      POD.cumsum_getD_le_sum absev habsnn k (by rw [habslen]; omega)
    rw [hgetD]
    have := (div_le_one htotal).mpr hle1
    linarith
  have hfin : POD.finalN (POD.retainedEnergyOf evs) 0 0
      (min Nmax (s.snapshots.length : ℤ)).toNat
      = min Nmax.toNat s.snapshots.length - 1 := by
    have := POD.finalN_no_cross (POD.retainedEnergyOf evs) 0
      (min Nmax (s.snapshots.length : ℤ)).toNat 0
      (fun j _ hj => hnocross j (by omega))
    simpa [htoNat] using this
  have happly := POD.apply_eq_ok s eig Nmax 0 hreal hpos
  rw [hfin] at happly
  have hm1 : 1 ≤ min Nmax.toNat s.snapshots.length := by omega
  rw [Nat.sub_add_cancel hm1] at happly
  refine ⟨_, _, happly, ?_⟩
  rw [List.length_take]
  have : evs.length = s.snapshots.length := by simp [hevs, POD.eigenvaluesOf]
  rw [this]
  omega

/-- C4 witness: two snapshots with eigensolver output `(3, 0)` and `(1, 0)`,
`Nmax = 5`, `tol = 0`: all `min(5, 2) = 2` modes are retained. -/
theorem apply_tol_zero_full_witness :
    ∃ s2 evs,
      POD.apply ⟨[[1], [0]], [], []⟩
          (fun i => if i = 0 then ((3 : ℚ), (0 : ℚ)) else ((1 : ℚ), (0 : ℚ))) 5 0 =
        .ok (s2, evs,
          min (5 : ℤ).toNat (⟨[[1], [0]], [], []⟩ : POD.PODState).snapshots.length) ∧
      evs.length =
        min (5 : ℤ).toNat (⟨[[1], [0]], [], []⟩ : POD.PODState).snapshots.length :=
  apply_tol_zero_full ⟨[[1], [0]], [], []⟩
    (fun i => if i = 0 then ((3 : ℚ), (0 : ℚ)) else ((1 : ℚ), (0 : ℚ))) 5
    (by decide)
    (by intro i _; by_cases h : i = 0 <;> simp [h, POD.npIscloseZero])
    ⟨0, by simp, by norm_num⟩

/-- C5 (counterexample): the claim says that when every eigenvalue is
numerically real, the assertion passes and `apply` proceeds to return
normally.  With one snapshot, an all-real eigensolver output and `Nmax = 0`,
every assertion passes yet `apply` raises the unbound-local error instead of
returning normally. -/
theorem apply_real_not_normal_cex :
    (∀ i < (⟨[[1]], [], []⟩ : POD.PODState).snapshots.length,
      POD.npIscloseZero ((fun _ => ((1 : ℚ), (0 : ℚ))) i).2 = true) ∧
    POD.apply ⟨[[1]], [], []⟩ (fun _ => ((1 : ℚ), (0 : ℚ))) 0 (1 / 2) =
      .error .nameError := by
  constructor
  · intro i _
    simp [POD.npIscloseZero]
  · simp [POD.apply, POD.npIscloseZero]

/-- C5 (amended): `apply` raises the fatal assertion failure if and only if
some eigenpair returned by the eigensolver carries an imaginary part that is
not numerically close to zero; when every eigenvalue is numerically real no
assertion is raised, and `apply` returns normally provided additionally
`min(Nmax, N) ≥ 1`. -/
theorem apply_assertion_iff (s : POD.PODState) (eig : ℕ → ℚ × ℚ)
    (Nmax : ℤ) (tol : ℚ) :
    (POD.apply s eig Nmax tol = .error .assertionError ↔
      ∃ i, i < s.snapshots.length ∧ POD.npIscloseZero (eig i).2 = false) ∧
    ((∀ i < s.snapshots.length, POD.npIscloseZero (eig i).2 = true) →
      0 < min Nmax (s.snapshots.length : ℤ) →
      ∃ out, POD.apply s eig Nmax tol = .ok out) := by
  constructor
  · constructor
    · intro h
      by_cases hall : (List.range s.snapshots.length).all
          (fun i => POD.npIscloseZero (eig i).2) = true
      · exfalso
        simp only [POD.apply, hall, if_true] at h
        by_cases hmin : min Nmax (s.snapshots.length : ℤ) ≤ 0
        · rw [if_pos hmin] at h
          simp at h
        · rw [if_neg hmin] at h
          simp at h
      · have hall' : (List.range s.snapshots.length).all
            (fun i => POD.npIscloseZero (eig i).2) = false := by
          simpa using hall
        obtain ⟨i, hmem, hp⟩ := List.all_eq_false.mp hall'
        exact ⟨i, List.mem_range.mp hmem, by simpa using hp⟩
    · rintro ⟨i, hi, hp⟩
      have hall : (List.range s.snapshots.length).all
          (fun i => POD.npIscloseZero (eig i).2) = false :=
        List.all_eq_false.mpr ⟨i, List.mem_range.mpr hi, by simp [hp]⟩
      simp [POD.apply, hall]
  · intro hreal hpos
    exact ⟨_, POD.apply_eq_ok s eig Nmax tol hreal hpos⟩

/-- C5 witness for the amended claim, at one snapshot, all-real eigensolver
output, `Nmax = 1`, `tol = 1/2`. -/
theorem apply_assertion_iff_witness :
    (POD.apply ⟨[[1]], [], []⟩ (fun _ => ((1 : ℚ), (0 : ℚ))) 1 (1 / 2) =
        .error .assertionError ↔
      ∃ i, i < (⟨[[1]], [], []⟩ : POD.PODState).snapshots.length ∧
        POD.npIscloseZero ((fun _ => ((1 : ℚ), (0 : ℚ))) i).2 = false) ∧
    ((∀ i < (⟨[[1]], [], []⟩ : POD.PODState).snapshots.length,
        POD.npIscloseZero ((fun _ => ((1 : ℚ), (0 : ℚ))) i).2 = true) →
      0 < min 1 ((⟨[[1]], [], []⟩ : POD.PODState).snapshots.length : ℤ) →
      ∃ out, POD.apply ⟨[[1]], [], []⟩ (fun _ => ((1 : ℚ), (0 : ℚ))) 1 (1 / 2) =
        .ok out) :=
  apply_assertion_iff ⟨[[1]], [], []⟩ (fun _ => ((1 : ℚ), (0 : ℚ))) 1 (1 / 2)

/-- C6 (counterexample): the claim says a zero-norm candidate means the zero
vector is appended.  With the symmetric positive-semidefinite inner product
`X = [[1,0],[0,0]]` and the candidate `b = (0,1)`, the inner-product norm of
`b` is exactly `0`, so `b` is enriched unnormalized — but the appended vector
is `(0,1)`, not the zero vector. -/
theorem enrich_zero_norm_nonzero_cex :
    Enrich.norm_b (some [[1, 0], [0, 0]]) [0, 1] = 0 ∧
    Enrich.enrichStep (some [[1, 0], [0, 0]]) [0, 1] = [0, 1] ∧
    [(0 : ℝ), 1] ≠ [0, 0] := by
  have hdot : Enrich.dotR [0, 1] (Enrich.matVec [[1, 0], [0, 0]] [0, 1]) = 0 := by
    simp [Enrich.dotR, Enrich.matVec]
  have hnb : Enrich.norm_b (some [[1, 0], [0, 0]]) [0, 1] = 0 := by
    simp only [Enrich.norm_b, hdot, Real.sqrt_zero]
  refine ⟨hnb, ?_, ?_⟩
  · rw [Enrich.enrichStep, if_neg (not_not_intro hnb)]
  · simp

/-- C6 (amended): during enrichment the division is always guarded: if the
inner-product norm of the candidate `b` is exactly zero, `b` is enriched
unnormalized (no division is executed; the appended vector is `b` itself,
which under the Euclidean inner product is necessarily the zero vector,
though under a merely positive-semidefinite operator `X` it may be
non-zero); otherwise `b` is divided by its norm before being enriched. -/
theorem enrich_norm_guard (X : Option (List (List ℝ))) (b : List ℝ) :
    (Enrich.norm_b X b = 0 → Enrich.enrichStep X b = b) ∧
    (Enrich.norm_b X b ≠ 0 →
      Enrich.enrichStep X b = b.map (fun x => x / Enrich.norm_b X b)) ∧
    (Enrich.norm_b none b = 0 → b = List.replicate b.length 0) := by
  refine ⟨?_, ?_, ?_⟩
  · intro h
    rw [Enrich.enrichStep, if_neg (not_not_intro h)]
  · intro h
    rw [Enrich.enrichStep, if_pos h]
  · intro h
    have h0 : Real.sqrt (Enrich.dotR b b) = 0 := h
    have hle : Enrich.dotR b b ≤ 0 := Real.sqrt_eq_zero'.mp h0
    exact Enrich.dotR_self_eq_zero b (le_antisymm hle (Enrich.dotR_self_nonneg b))

/-- C6 witness for the amended claim: the zero candidate in the Euclidean
inner product has zero norm and is enriched unchanged. -/
theorem enrich_norm_guard_witness :
    Enrich.norm_b none [(0 : ℝ)] = 0 ∧
    Enrich.enrichStep none [(0 : ℝ)] = [(0 : ℝ)] := by
  have h : Enrich.norm_b none [(0 : ℝ)] = 0 := by
    simp [Enrich.norm_b, Enrich.dotR]
  exact ⟨h, (enrich_norm_guard none [(0 : ℝ)]).1 h⟩
